import Mathlib

/-!
Verification of the Azure Data Lake Store CLI (`samples/cli.py`) against its
natural-language specification.

The repository is a thin interactive shell (`cmd.Cmd`) whose command handlers
parse an argument line with `argparse` and forward to SDK calls.  Pure parsing
and formatting logic is embedded directly from the source.  The resumable
chunked transfer engine described by the spec (ChunkPlanner, JobStateStore,
TransferManager) lives in the external SDK, not in this repository; those
components are modelled from the spec, each such definition marked
`Modelled from the spec:`.

Python values are embedded as follows: `str` as `String` (or `List Char` where
character-level reasoning is needed), `int` as `Int`/`Nat`, `None`-able values
as `Option`, raised exceptions as `Except` errors or explicit outcome
constructors.
-/

/-- Python exception kinds that arise in `cli.py`'s control flow. -/
inductive PyErr where
  | valueError
  | keyError
  | indexError
  | unboundLocal
  | attributeError
  | systemExit
  deriving DecidableEq, Repr

/-- Python `str.split(':')` on a string viewed as a list of characters:
splits at every `':'`, keeping empty segments (`"".split(':') == ['']`,
`"a:b".split(':') == ['a','b']`). Source: `ownership.split(':')`,
`cli.py` line 152. -/
def splitColon : List Char → List (List Char)
  | [] => [[]]
  | c :: rest =>
    match splitColon rest with
    | [] => [[c]]
    | h :: t => if c = ':' then [] :: h :: t else (c :: h) :: t

/-- `AzureDataLakeFSCommand._parse_ownership` (`cli.py` lines 150-158).
`if ':' in ownership:` unpacks `ownership.split(':')` into two variables
(raising `ValueError` unless the split has exactly two parts) and replaces an
empty owner by `None`; otherwise the whole string is the owner and the group
is `None`. -/
def parse_ownership (ownership : List Char) :
    Except PyErr (Option (List Char) × Option (List Char)) :=
  if ':' ∈ ownership then
    match splitColon ownership with
    | [owner, group] =>
      .ok ((if owner = [] then none else some owner), some group)
    | _ => .error .valueError
  else
    .ok (some ownership, none)

/-! ## The argparse-based command handlers

Each handler builds an `argparse` parser and runs
`try: args = parser.parse_args(line.split()) except: pass`.  On a parse
failure argparse writes its usage message to stderr and raises `SystemExit`;
the bare `except: pass` swallows it, leaving the local `args` unbound, so the
next line referencing `args` raises `UnboundLocalError`.  The interactive
main loop (`cli.py` lines 552-562) catches `UnboundLocalError` with `pass`.

Tokens are the result of Python `line.split()` (whitespace-separated,
nonempty).  A token is option-like when it starts with `'-'` (argparse's
special case for tokens that look like negative numbers never applies here
in a way the proved statements depend on: the proved statements only
constrain runs whose tokens are not option-like, or are concrete). -/

/-- A token argparse treats as an option rather than a positional: it starts
with `'-'` and is not the bare token `"-"`. -/
def isOptionLike (t : String) : Bool :=
  match t.toList with
  | [] => false
  | c :: rest => c = '-' && rest ≠ []

/-- What a command handler's body does: runs the underlying filesystem call
with the parsed arguments, or raises a Python exception. -/
inductive HandlerOutcome (α : Type) where
  | executed : α → HandlerOutcome α
  | raised : PyErr → HandlerOutcome α
  deriving DecidableEq, Repr

/-- Argument parsing shared by `cat` (`cli.py` 110-111) and `mv` (368-369):
one positional `files` with `nargs='+'` and no options.  Returns the file
list, or `none` for the argparse failure (`SystemExit`): no token given, or
an option-like token that matches no declared option. -/
def parsePaths (tokens : List String) : Option (List String) :=
  if tokens.any isOptionLike then none
  else if tokens.isEmpty then none
  else some tokens

/-- `AzureDataLakeFSCommand.do_cat` (`cli.py` lines 109-116).  On parse
failure the `except: pass` swallows argparse's `SystemExit` and the loop
`for f in args.files` then raises `UnboundLocalError`; on success the files
are streamed to stdout. -/
def do_cat (tokens : List String) : HandlerOutcome (List String) :=
  match parsePaths tokens with
  | none => .raised .unboundLocal
  | some files => .executed files

/-- `AzureDataLakeFSCommand.do_mv` (`cli.py` lines 367-373).  After the same
swallowed parse, the body is `self._fs.mv(args.files[0], args.files[1])`:
fewer than two files raises `IndexError`, extra files are ignored. -/
def do_mv (tokens : List String) : HandlerOutcome (String × String) :=
  match parsePaths tokens with
  | none => .raised .unboundLocal
  | some files =>
    match files with
    | f0 :: f1 :: _ => .executed (f0, f1)
    | _ => .raised .indexError

/-- The interactive main loop's exception handling (`cli.py` lines 552-562):
`except UnboundLocalError: pass` prints nothing; `except AttributeError`
and `except Exception` print a diagnostic line.  (`SystemExit` would not be
caught, but never escapes a handler: the bare `except` inside each handler
swallows it first.) -/
def interactive_report : PyErr → Option String
  | .unboundLocal => none
  | .attributeError => some " >> AttributeError"
  | .systemExit => none
  | e => some (" >> Exception: " ++ reprStr e)

/-- Arguments of `get`/`put` after parsing (`cli.py` 245-250 and 380-385).
Both commands declare the same shape: one required positional, one optional
positional defaulting to `"."`, `-b` or `--chunksize` (int, default `2**28`),
`-c` or `--threads` (int, default `None`), `-f` or `--force` (flag,
default false). -/
structure GetPutArgs where
  path1 : String
  path2 : String
  chunksize : Int
  threads : Option Int
  force : Bool
  deriving DecidableEq, Repr

/-- The argparse loop for `get`/`put`: consumes tokens left to right,
an option flag consuming its integer value, every other non-option-like
token collected as a positional; at the end one positional is required and a
second optional (default `"."`), more is an argparse error.  `pos` is the
accumulator of positionals seen so far, `b`/`c`/`f` the current option
values (initially the argparse defaults). -/
def parseGetPut (tokens pos : List String) (b : Int) (c : Option Int)
    (f : Bool) : Option GetPutArgs :=
  match tokens with
  | [] =>
    match pos with
    | [p1] => some ⟨p1, ".", b, c, f⟩
    | [p1, p2] => some ⟨p1, p2, b, c, f⟩
    | _ => none
  | t :: rest =>
    if t = "-b" ∨ t = "--chunksize" then
      match rest with
      | v :: rest2 =>
        match v.toInt? with
        | some n => parseGetPut rest2 pos n c f
        | none => none
      | [] => none
    else if t = "-c" ∨ t = "--threads" then
      match rest with
      | v :: rest2 =>
        match v.toInt? with
        | some n => parseGetPut rest2 pos b (some n) f
        | none => none
      | [] => none
    else if t = "-f" ∨ t = "--force" then
      parseGetPut rest pos b c true
    else if isOptionLike t then none
    else parseGetPut rest (pos ++ [t]) b c f
termination_by tokens.length
decreasing_by
  all_goals simp only [List.length_cons]
  all_goals omega

/-- The call the handler hands to the SDK transfer engine
(`ADLDownloader`/`ADLUploader`, `cli.py` 254-256 and 389-391), with the
argument values the handler passes. -/
structure TransferCall where
  remotePath : String
  localPath : String
  nthreads : Option Int
  chunksize : Int
  overwrite : Bool
  deriving DecidableEq, Repr

/-- `AzureDataLakeFSCommand.do_get` (`cli.py` lines 244-256): parses
`remote_path [local_path]` plus options and submits
`ADLDownloader(fs, remote, local, nthreads=threads, chunksize=chunksize,
overwrite=force)`.  Parse failure follows the swallowed-`SystemExit` /
`UnboundLocalError` path of the other handlers. -/
def do_get (tokens : List String) : Except PyErr TransferCall :=
  match parseGetPut tokens [] (2 ^ 28) none false with
  | none => .error .unboundLocal
  | some a => .ok ⟨a.path1, a.path2, a.threads, a.chunksize, a.force⟩

/-- `AzureDataLakeFSCommand.do_put` (`cli.py` lines 379-391): parses
`local_path [remote_path]` plus the same options and submits
`ADLUploader(fs, remote, local, ...)`; here `path1` is the local path and
`path2` (default `"."`) the remote one. -/
def do_put (tokens : List String) : Except PyErr TransferCall :=
  match parseGetPut tokens [] (2 ^ 28) none false with
  | none => .error .unboundLocal
  | some a => .ok ⟨a.path2, a.path1, a.threads, a.chunksize, a.force⟩

/-! ## The transfer engine modelled from the spec

`get`/`put` and the `list_uploads`/`resume_upload`/`clear_uploads` commands
delegate to `ADLDownloader`/`ADLUploader`, an engine that is not part of this
repository.  The spec (sections 2-7) specifies it; the following definitions
are modelled from those sections. -/

/-- Modelled from the spec: a Chunk (section 3) is a contiguous byte range
`[offset, offset+length)` of one file, the unit of transfer and retry. -/
structure Chunk where
  offset : Nat
  length : Nat
  deriving DecidableEq, Repr

/-- Modelled from the spec: the ChunkPlanner (section 4.1) walks a file of
`S` remaining bytes from `off`, cutting a chunk of `min C S` bytes until
nothing remains.  `C = 0` is guarded (the spec requires `C > 0`). -/
def chunkPlanAux (off S C : Nat) : List Chunk :=
  if _h : C = 0 ∨ S = 0 then []
  else ⟨off, min C S⟩ :: chunkPlanAux (off + min C S) (S - min C S) C
termination_by S
decreasing_by omega

/-- Modelled from the spec: the chunk plan for a file of size `S` with
configured chunk size `C` (section 4.1). -/
def chunkPlan (S C : Nat) : List Chunk := chunkPlanAux 0 S C

/-- The plan is an ordered, gap-free, non-overlapping cover of
`[off, off+S)`: each chunk starts where the previous one ended, is nonempty,
and the lengths sum to `S`. -/
def chunksChain : Nat → Nat → List Chunk → Prop
  | _, S, [] => S = 0
  | off, S, c :: rest =>
    c.offset = off ∧ 0 < c.length ∧ c.length ≤ S ∧
      chunksChain (off + c.length) (S - c.length) rest

/-- Byte `x` lies in chunk `c`. -/
def coversB (c : Chunk) (x : Nat) : Bool :=
  decide (c.offset ≤ x) && decide (x < c.offset + c.length)

/-- Modelled from the spec: transferring one chunk copies the source bytes
of its range `[offset, offset+length)` to the destination (section 4.2).
`src` gives the source byte at each offset; the destination is partial
(`none` = not yet written). -/
def writeChunk (src : Nat → Nat) (dest : Nat → Option Nat) (c : Chunk) :
    Nat → Option Nat :=
  fun x => if coversB c x then some (src x) else dest x

/-- Modelled from the spec: running a list of chunk transfers against a
destination. -/
def runChunks (src : Nat → Nat) (cs : List Chunk) (dest : Nat → Option Nat) :
    Nat → Option Nat :=
  cs.foldl (writeChunk src) dest

/-- Modelled from the spec: a fresh, uninterrupted transfer of a size-`S`
source planned with chunk size `C` into an empty destination
(sections 4.3, 8). -/
def freshTransfer (src : Nat → Nat) (S C : Nat) : Nat → Option Nat :=
  runChunks src (chunkPlan S C) (fun _ => none)

/-- Modelled from the spec: the Done chunks `D` of a paused job, given the
persisted per-chunk status (section 3, JobRecord). -/
def doneChunks (ps : List Chunk) (isDone : Chunk → Bool) : List Chunk :=
  ps.filter isDone

/-- Modelled from the spec: the Pending chunks `P` of a paused job. -/
def pendingChunks (ps : List Chunk) (isDone : Chunk → Bool) : List Chunk :=
  ps.filter (fun c => !(isDone c))

/-- Modelled from the spec: resuming a paused job re-dispatches exactly the
not-yet-Done chunks on top of the partially written destination
(section 4.3; glossary, Resume). -/
def resumeTransfer (src : Nat → Nat) (ps : List Chunk) (isDone : Chunk → Bool) :
    Nat → Option Nat :=
  runChunks src (pendingChunks ps isDone)
    (runChunks src (doneChunks ps isDone) (fun _ => none))

/-! ## Job registry: list / resume / clear

`do_list_uploads`, `do_resume_upload`, `do_clear_uploads` and their download
counterparts (`cli.py` 471-517) delegate to `ADLUploader.load()`,
`.clear_saved()` and `job.run()`; the store and job semantics are modelled
from spec sections 4.3-4.5 and 6. -/

/-- Modelled from the spec: the status of a TransferJob (section 4.3). -/
inductive JobStatus where
  | Running
  | Paused
  | Completed
  | Failed
  deriving DecidableEq, Repr

/-- Modelled from the spec: a persisted JobRecord (section 3) — the name it
is keyed by, its status, and its chunks split by persisted per-chunk
status. -/
structure JobRecord where
  name : String
  status : JobStatus
  chunksDone : List Chunk
  chunksPending : List Chunk
  deriving DecidableEq, Repr

/-- Modelled from the spec: the engine's error kinds (section 7). -/
inductive EngineError where
  | NotFoundError
  | JobBusyError
  | StaleJobError
  | AlreadyExistsError
  | ChunkTransferError
  deriving DecidableEq, Repr

/-- Modelled from the spec: `load(name)` of the JobStateStore (section 4.4)
— the record keyed by the job name, if any. -/
def lookupJob (store : List JobRecord) (n : String) : Option JobRecord :=
  store.find? (fun j => decide (j.name = n))

/-- Modelled from the spec: `remove(name)` of the JobStateStore
(section 4.4) — drops the record with the given name; removing an absent
name leaves the store as is. -/
def removeJob (store : List JobRecord) (n : String) : List JobRecord :=
  store.filter (fun j => !(decide (j.name = n)))

/-- Modelled from the spec: running a job until every chunk is terminal
(section 4.3): each pending chunk is attempted, `ok` saying which chunk
transfers succeed; the job Completes when no pending chunk remains,
otherwise it Fails. -/
def runJob (j : JobRecord) (ok : Chunk → Bool) : JobRecord :=
  { j with
    status :=
      if (j.chunksPending.filter (fun c => !(ok c))).isEmpty then
        JobStatus.Completed
      else JobStatus.Failed,
    chunksDone := j.chunksDone ++ j.chunksPending.filter ok,
    chunksPending := j.chunksPending.filter (fun c => !(ok c)) }

/-- Modelled from the spec: `resume(name)` of the TransferManager /
`resume_job(name)` of the boundary (sections 4.5, 6): loads via the
JobStateStore, failing with `NotFoundError` when the name is unknown;
otherwise re-enters the Running state and runs to a terminal status.  The
returned list is the trace of statuses the job passes through. -/
def resume_job (store : List JobRecord) (n : String) (ok : Chunk → Bool) :
    Except EngineError (List JobStatus × JobRecord) :=
  match lookupJob store n with
  | none => .error .NotFoundError
  | some j =>
    let fin := runJob { j with status := JobStatus.Running } ok
    .ok ([JobStatus.Running, fin.status], fin)

/-- Modelled from the spec: `clear(name=None)` of the TransferManager
(section 4.5): with a name, removes that record unless its job is Running
(then `JobBusyError`, store untouched); with no name, removes all records
whose job is not currently Running. -/
def clear_jobs (store : List JobRecord) (name : Option String) :
    Except EngineError (List JobRecord) :=
  match name with
  | some n =>
    match lookupJob store n with
    | none => .ok store
    | some j =>
      if j.status = JobStatus.Running then .error .JobBusyError
      else .ok (removeJob store n)
  | none => .ok (store.filter (fun j => decide (j.status = JobStatus.Running)))

/-- `AzureDataLakeFSCommand._format_size` (`cli.py` lines 197-202), numeric
core: loop over the units B, K, M, G, T, returning at the first unit where
`abs(num) < 1024.0`, else dividing `num` by 1024; falling out of the loop
yields suffix P.  Python floats are modelled as rationals (division by
1024.0 is exact in binary floating point); the decimal rendering
`_truncate(num, fmt)` is abstracted: the pair holds the exact scaled value
handed to `_truncate` and the unit suffix appended to it. -/
def format_size_aux (num : ℚ) : List String → ℚ × String
  | [] => (num, "P")
  | u :: rest =>
    if |num| < 1024 then (num, u) else format_size_aux (num / 1024) rest

/-- `_format_size` with the source's unit list. -/
def format_size (num : ℚ) : ℚ × String :=
  format_size_aux num ["B", "K", "M", "G", "T"]

/-- The unit the claim associates with the k-th power of 1024. -/
def unitFor : Nat → String
  | 0 => "B"
  | 1 => "K"
  | 2 => "M"
  | 3 => "G"
  | 4 => "T"
  | _ => "P"

/-! ## Theorems -/

theorem splitColon_ne_nil (s : List Char) : splitColon s ≠ [] := by
  cases s with
  | nil => simp [splitColon]
  | cons c rest =>
    simp only [splitColon]
    match splitColon rest with
    | [] => simp
    | h :: t => by_cases hc : c = ':' <;> simp [hc]

theorem splitColon_no_colon (s : List Char) (h : ':' ∉ s) :
    splitColon s = [s] := by
  induction s with
  | nil => rfl
  | cons c rest ih =>
    simp only [List.mem_cons, not_or] at h
    rw [splitColon, ih h.2]
    simp [Ne.symm h.1]

theorem splitColon_one_colon (a b : List Char)
    (ha : ':' ∉ a) (hb : ':' ∉ b) :
    splitColon (a ++ ':' :: b) = [a, b] := by
  induction a with
  | nil => simp [splitColon, splitColon_no_colon b hb]
  | cons c rest ih =>
    simp only [List.mem_cons, not_or] at ha
    rw [List.cons_append, splitColon, ih ha.2]
    simp [Ne.symm ha.1]

/-- C8: For every input string with no `':'`, `_parse_ownership` returns
(the whole string, None); for every input `owner ++ ':' ++ group` with exactly
one `':'`, it returns (owner, group), with owner `None` when the part before
the `':'` is empty. -/
theorem parse_ownership_spec (s a b : List Char) :
    (':' ∉ s → parse_ownership s = .ok (some s, none)) ∧
    (':' ∉ a → ':' ∉ b →
      parse_ownership (a ++ ':' :: b) =
        .ok ((if a = [] then none else some a), some b)) := by
  constructor
  · intro h
    simp [parse_ownership, h]
  · intro ha hb
    have hmem : ':' ∈ a ++ ':' :: b := by simp
    rw [parse_ownership, if_pos hmem, splitColon_one_colon a b ha hb]

theorem parse_ownership_spec_witness :
    (parse_ownership "user".toList = .ok (some "user".toList, none)) ∧
    (parse_ownership ":grp".toList =
      .ok (none, some "grp".toList)) := by
  constructor
  · exact (parse_ownership_spec "user".toList [] []).1 (by decide)
  · exact (parse_ownership_spec [] [] "grp".toList).2 (by decide) (by decide)

/-- C1 counterexample: invoking `cat` with an empty argument line fails to
parse, the handler neither executes nor surfaces a parse failure — it raises
`UnboundLocalError` (the parse exception having been swallowed by
`except: pass`) and the interactive loop discards that silently. -/
theorem cat_parse_failure_is_silent_counterexample :
    parsePaths [] = none ∧
    do_cat [] = HandlerOutcome.raised PyErr.unboundLocal ∧
    interactive_report PyErr.unboundLocal = none := by
  refine ⟨rfl, rfl, rfl⟩

/-- C1 amended: for every `cat` argument line that fails to parse, the parse
exception is swallowed (`except: pass`), the handler raises
`UnboundLocalError` on the unbound `args`, and the interactive loop
silences it — the command neither executes nor reports through the
handler; the only output is argparse's own stderr usage message. -/
theorem cat_parse_failure_swallowed (tokens : List String)
    (h : parsePaths tokens = none) :
    do_cat tokens = HandlerOutcome.raised PyErr.unboundLocal ∧
    interactive_report PyErr.unboundLocal = none := by
  have hcat : do_cat tokens = HandlerOutcome.raised PyErr.unboundLocal := by
    unfold do_cat
    rw [h]
  exact ⟨hcat, rfl⟩

theorem cat_parse_failure_swallowed_witness :
    do_cat ["-z"] = HandlerOutcome.raised PyErr.unboundLocal ∧
    interactive_report PyErr.unboundLocal = none :=
  cat_parse_failure_swallowed ["-z"] (by decide)

/-- C9: `do_mv` only ever renames its first path to its second: with exactly
one path the body fails with `IndexError` (out-of-bounds `args.files[1]`),
and with more than two paths every path after the second is ignored — the
executed call is `mv files[0] files[1]` whatever follows. -/
theorem do_mv_spec (f1 a b : String) (rest : List String)
    (h1 : isOptionLike f1 = false)
    (h2 : isOptionLike a = false) (h3 : isOptionLike b = false)
    (h4 : ∀ t ∈ rest, isOptionLike t = false) :
    do_mv [f1] = HandlerOutcome.raised PyErr.indexError ∧
    do_mv (a :: b :: rest) = HandlerOutcome.executed (a, b) := by
  constructor
  · simp [do_mv, parsePaths, h1]
  · have hany : (a :: b :: rest).any isOptionLike = false := by
      simp only [List.any_eq_false, Bool.not_eq_true]
      intro t ht
      rcases List.mem_cons.mp ht with rfl | ht
      · exact h2
      · rcases List.mem_cons.mp ht with rfl | ht
        · exact h3
        · exact h4 t ht
    simp [do_mv, parsePaths, hany]

theorem do_mv_spec_witness :
    do_mv ["one"] = HandlerOutcome.raised PyErr.indexError ∧
    do_mv ["one", "two", "three"] = HandlerOutcome.executed ("one", "two") :=
  do_mv_spec "one" "one" "two" ["three"] (by decide) (by decide) (by decide)
    (by decide)

theorem parseGetPut_no_options (tokens : List String) :
    ∀ pos b c f r, (∀ t ∈ tokens, isOptionLike t = false) →
    parseGetPut tokens pos b c f = some r →
    r.chunksize = b ∧ r.threads = c ∧ r.force = f := by
  induction tokens with
  | nil =>
    intro pos b c f r _ hp
    simp only [parseGetPut.eq_def] at hp
    rcases pos with _ | ⟨p1, _ | ⟨p2, _ | _⟩⟩
    · exact Option.noConfusion hp
    · injection hp with hp
      subst hp
      exact ⟨rfl, rfl, rfl⟩
    · injection hp with hp
      subst hp
      exact ⟨rfl, rfl, rfl⟩
    · exact Option.noConfusion hp
  | cons t rest ih =>
    intro pos b c f r h hp
    have ht : isOptionLike t = false := h t (List.mem_cons_self t rest)
    have hb : ¬(t = "-b" ∨ t = "--chunksize") := by
      rintro (rfl | rfl) <;> exact absurd ht (by decide)
    have hc : ¬(t = "-c" ∨ t = "--threads") := by
      rintro (rfl | rfl) <;> exact absurd ht (by decide)
    have hf : ¬(t = "-f" ∨ t = "--force") := by
      rintro (rfl | rfl) <;> exact absurd ht (by decide)
    rw [parseGetPut.eq_def] at hp
    simp only [if_neg hb, if_neg hc, if_neg hf, ht, Bool.false_eq_true,
      if_false] at hp
    exact ih (pos ++ [t]) b c f r (fun u hu => h u (List.mem_cons_of_mem t hu)) hp

/-- C4: when a `get` or `put` invocation carries no option token, the
submitted transfer uses `chunksize = 2^28` (256 MiB), `nthreads = None`
(platform default chosen by the engine), and `overwrite = false`. -/
theorem get_put_default_config (tokens : List String)
    (h : ∀ t ∈ tokens, isOptionLike t = false) :
    (∀ call, do_get tokens = .ok call →
      call.chunksize = 2 ^ 28 ∧ call.nthreads = none ∧
        call.overwrite = false) ∧
    (∀ call, do_put tokens = .ok call →
      call.chunksize = 2 ^ 28 ∧ call.nthreads = none ∧
        call.overwrite = false) ∧
    (2 : Int) ^ 28 = 256 * 1024 * 1024 := by
  refine ⟨?_, ?_, by norm_num⟩
  · intro call hcall
    rw [do_get] at hcall
    rcases hr : parseGetPut tokens [] (2 ^ 28) none false with _ | a
    · rw [hr] at hcall
      exact Except.noConfusion hcall
    · rw [hr] at hcall
      injection hcall with hcall
      subst hcall
      have h3 := parseGetPut_no_options tokens [] (2 ^ 28) none false a h hr
      exact ⟨h3.1, h3.2.1, h3.2.2⟩
  · intro call hcall
    rw [do_put] at hcall
    rcases hr : parseGetPut tokens [] (2 ^ 28) none false with _ | a
    · rw [hr] at hcall
      exact Except.noConfusion hcall
    · rw [hr] at hcall
      injection hcall with hcall
      subst hcall
      have h3 := parseGetPut_no_options tokens [] (2 ^ 28) none false a h hr
      exact ⟨h3.1, h3.2.1, h3.2.2⟩

theorem get_put_default_config_witness :
    (∀ call, do_get ["data"] = .ok call →
      call.chunksize = 2 ^ 28 ∧ call.nthreads = none ∧
        call.overwrite = false) ∧
    (∀ call, do_put ["data"] = .ok call →
      call.chunksize = 2 ^ 28 ∧ call.nthreads = none ∧
        call.overwrite = false) ∧
    (2 : Int) ^ 28 = 256 * 1024 * 1024 :=
  get_put_default_config ["data"] (by decide)

theorem chunkPlanAux_nil (off C : Nat) : chunkPlanAux off 0 C = [] := by
  rw [chunkPlanAux.eq_def]
  simp

theorem chunkPlanAux_chain (C : Nat) (hC : 0 < C) :
    ∀ S off, chunksChain off S (chunkPlanAux off S C) := by
  intro S
  induction S using Nat.strong_induction_on with
  | _ S ih =>
    intro off
    rw [chunkPlanAux.eq_def]
    by_cases h : C = 0 ∨ S = 0
    · rw [dif_pos h]
      have hS : S = 0 := by omega
      subst hS
      exact rfl
    · rw [dif_neg h]
      exact ⟨rfl, show 0 < min C S by omega, show min C S ≤ S by omega,
        ih (S - min C S) (by omega) (off + min C S)⟩

theorem chunkPlanAux_length (C : Nat) (hC : 0 < C) :
    ∀ S off, (chunkPlanAux off S C).length = (S + C - 1) / C := by
  intro S
  induction S using Nat.strong_induction_on with
  | _ S ih =>
    intro off
    rw [chunkPlanAux.eq_def]
    by_cases h : C = 0 ∨ S = 0
    · rw [dif_pos h]
      have hS : S = 0 := by omega
      subst hS
      simp only [List.length_nil]
      rw [show (0 : Nat) + C - 1 = C - 1 from by omega]
      exact (Nat.div_eq_of_lt (by omega)).symm
    · rw [dif_neg h]
      simp only [List.length_cons]
      rw [ih (S - min C S) (by omega) (off + min C S)]
      rw [show S + C - 1 = (S - 1) + C by omega, Nat.add_div_right _ hC]
      by_cases hSC : S ≤ C
      · rw [show min C S = S by omega]
        rw [show S - S + C - 1 = C - 1 by omega]
        rw [Nat.div_eq_of_lt (show C - 1 < C by omega)]
        rw [Nat.div_eq_of_lt (show S - 1 < C by omega)]
      · rw [show min C S = C by omega]
        rw [show S - C + C - 1 = S - 1 by omega]

theorem chunkPlanAux_bounds (C : Nat) (hC : 0 < C) :
    ∀ S off c, c ∈ chunkPlanAux off S C → 0 < c.length ∧ c.length ≤ C := by
  intro S
  induction S using Nat.strong_induction_on with
  | _ S ih =>
    intro off c hc
    rw [chunkPlanAux.eq_def] at hc
    by_cases h : C = 0 ∨ S = 0
    · rw [dif_pos h] at hc
      exact absurd hc (List.not_mem_nil c)
    · rw [dif_neg h] at hc
      rcases List.mem_cons.mp hc with rfl | hc
      · exact ⟨show 0 < min C S by omega, show min C S ≤ C by omega⟩
      · exact ih (S - min C S) (by omega) (off + min C S) c hc

theorem chunkPlanAux_full (C : Nat) (hC : 0 < C) :
    ∀ S off i c, i + 1 < (chunkPlanAux off S C).length →
      (chunkPlanAux off S C)[i]? = some c → c.length = C := by
  intro S
  induction S using Nat.strong_induction_on with
  | _ S ih =>
    intro off i c hlen hget
    rw [chunkPlanAux.eq_def] at hlen hget
    by_cases h : C = 0 ∨ S = 0
    · rw [dif_pos h] at hlen
      simp at hlen
    · rw [dif_neg h] at hlen hget
      match i with
      | 0 =>
        rw [List.getElem?_cons_zero] at hget
        injection hget with hget
        subst hget
        by_cases hS2 : S - min C S = 0
        · rw [hS2, chunkPlanAux_nil] at hlen
          simp at hlen
        · simp only
          omega
      | j + 1 =>
        rw [List.getElem?_cons_succ] at hget
        simp only [List.length_cons] at hlen
        exact ih (S - min C S) (by omega) (off + min C S) j c (by omega) hget

theorem chain_countP (x : Nat) :
    ∀ (cs : List Chunk) (off S : Nat), chunksChain off S cs →
      cs.countP (fun c => coversB c x) =
        if off ≤ x ∧ x < off + S then 1 else 0 := by
  intro cs
  induction cs with
  | nil =>
    intro off S hch
    have hS : S = 0 := hch
    subst hS
    simp only [List.countP_nil]
    split_ifs with hx
    · omega
    · rfl
  | cons c rest ih =>
    intro off S hch
    have hch2 : c.offset = off ∧ 0 < c.length ∧ c.length ≤ S ∧
        chunksChain (off + c.length) (S - c.length) rest := hch
    obtain ⟨ho, hpos, hle, hrest⟩ := hch2
    rw [List.countP_cons, ih (off + c.length) (S - c.length) hrest]
    simp only [coversB, ho, Bool.and_eq_true, decide_eq_true_eq]
    split_ifs <;> omega

/-- C5: for every file size `S` and chunk size `C > 0`, the chunk plan is an
ordered, gap-free, non-overlapping sequence covering `[0, S)` exactly once
(each byte below `S` lies in exactly one chunk, each byte at or above `S` in
none), with exactly `ceil(S/C) = (S + C - 1) / C` chunks, every chunk
nonempty and at most `C` bytes, and every chunk except possibly the final
one exactly `C` bytes. -/
theorem chunkPlan_spec (S C : Nat) (hC : 0 < C) :
    (chunkPlan S C).length = (S + C - 1) / C ∧
    chunksChain 0 S (chunkPlan S C) ∧
    (∀ x, (chunkPlan S C).countP (fun c => coversB c x) =
      if x < S then 1 else 0) ∧
    (∀ i c, i + 1 < (chunkPlan S C).length →
      (chunkPlan S C)[i]? = some c → c.length = C) ∧
    (∀ c ∈ chunkPlan S C, 0 < c.length ∧ c.length ≤ C) := by
  refine ⟨chunkPlanAux_length C hC S 0, chunkPlanAux_chain C hC S 0, ?_,
    fun i c => chunkPlanAux_full C hC S 0 i c,
    fun c => chunkPlanAux_bounds C hC S 0 c⟩
  intro x
  rw [chain_countP x (chunkPlan S C) 0 S (chunkPlanAux_chain C hC S 0)]
  split_ifs <;> omega

theorem chunkPlan_spec_witness :
    (0 < 4) ∧
    ((chunkPlan 10 4).length = (10 + 4 - 1) / 4) ∧
    (10 + 4 - 1) / 4 = 3 :=
  ⟨by norm_num, (chunkPlan_spec 10 4 (by norm_num)).1, by norm_num⟩

theorem runChunks_apply (src : Nat → Nat) (cs : List Chunk) :
    ∀ dest x, runChunks src cs dest x =
      if cs.any (fun c => coversB c x) then some (src x) else dest x := by
  induction cs with
  | nil =>
    intro dest x
    simp [runChunks]
  | cons c rest ih =>
    intro dest x
    show runChunks src rest (writeChunk src dest c) x = _
    rw [ih]
    by_cases hr : rest.any (fun c => coversB c x) = true
    · simp [hr]
    · by_cases hc : coversB c x = true <;> simp [hr, hc, writeChunk]

theorem countP_filter_partition (p q : Chunk → Bool) (l : List Chunk) :
    (l.filter q).countP p + (l.filter (fun c => !(q c))).countP p =
      l.countP p := by
  induction l with
  | nil => rfl
  | cons c rest ih =>
    by_cases hq : q c = true <;> by_cases hp : p c = true <;>
      simp [List.filter_cons, List.countP_cons, hq, hp] <;> omega

theorem any_iff_countP_pos (p : Chunk → Bool) (l : List Chunk) :
    l.any p = true ↔ 0 < l.countP p := by
  rw [List.any_eq_true, List.countP_pos_iff]

theorem any_eq_decide_countP (p : Chunk → Bool) (l : List Chunk) :
    l.any p = decide (0 < l.countP p) := by
  by_cases hq : 0 < l.countP p
  · rw [(any_iff_countP_pos p l).mpr hq, decide_eq_true hq]
  · rw [decide_eq_false hq]
    cases hb : l.any p with
    | false => rfl
    | true => exact absurd ((any_iff_countP_pos p l).mp hb) hq

/-- C6: for a paused job over the chunk plan of a size-`S` source (chunk
size `C > 0`) whose chunks split by persisted status into Done `D` and
Pending `P`, resuming dispatches the chunks of `P` (by construction of
`resumeTransfer`) and: the result equals a fresh uninterrupted transfer at
every offset; no pending chunk overlaps a done byte, and on every done byte
the resume leaves the paused destination unchanged; the final content on
`[0, S)` is exactly the source bytes and nothing outside `[0, S)` is
written — no short or duplicated file. -/
theorem resume_equals_fresh (src : Nat → Nat) (S C : Nat)
    (isDone : Chunk → Bool) (hC : 0 < C) :
    (∀ x, resumeTransfer src (chunkPlan S C) isDone x =
      freshTransfer src S C x) ∧
    (∀ x, (doneChunks (chunkPlan S C) isDone).any (fun c => coversB c x) =
        true →
      (pendingChunks (chunkPlan S C) isDone).any (fun c => coversB c x) =
        false ∧
      resumeTransfer src (chunkPlan S C) isDone x =
        runChunks src (doneChunks (chunkPlan S C) isDone) (fun _ => none) x) ∧
    (∀ x, x < S → freshTransfer src S C x = some (src x)) ∧
    (∀ x, S ≤ x → freshTransfer src S C x = none) := by
  have hchain := chunkPlanAux_chain C hC S 0
  have hcount : ∀ x, (chunkPlan S C).countP (fun c => coversB c x) =
      if 0 ≤ x ∧ x < 0 + S then 1 else 0 :=
    fun x => chain_countP x (chunkPlan S C) 0 S hchain
  have hpart : ∀ x,
      (doneChunks (chunkPlan S C) isDone).countP (fun c => coversB c x) +
        (pendingChunks (chunkPlan S C) isDone).countP (fun c => coversB c x) =
        (chunkPlan S C).countP (fun c => coversB c x) :=
    fun x => countP_filter_partition (fun c => coversB c x) isDone
      (chunkPlan S C)
  refine ⟨?_, ?_, ?_, ?_⟩
  · intro x
    rw [resumeTransfer, freshTransfer, runChunks_apply, runChunks_apply,
      runChunks_apply]
    by_cases hp : (pendingChunks (chunkPlan S C) isDone).any
        (fun c => coversB c x) = true
    · have hps : (chunkPlan S C).any (fun c => coversB c x) = true := by
        rw [any_iff_countP_pos] at hp ⊢
        have := hpart x
        omega
      simp [hp, hps]
    · have hp' : (pendingChunks (chunkPlan S C) isDone).any
          (fun c => coversB c x) = false := Bool.eq_false_iff.mpr hp
      have h0 : (pendingChunks (chunkPlan S C) isDone).countP
          (fun c => coversB c x) = 0 := by
        by_contra hne
        exact hp ((any_iff_countP_pos _ _).mpr (by omega))
      have hde : (doneChunks (chunkPlan S C) isDone).any
          (fun c => coversB c x) =
          (chunkPlan S C).any (fun c => coversB c x) := by
        rw [any_eq_decide_countP, any_eq_decide_countP, decide_eq_decide]
        have := hpart x
        omega
      rw [hde]
      simp [hp']
  · intro x hd
    have hdc : 0 < (doneChunks (chunkPlan S C) isDone).countP
        (fun c => coversB c x) := (any_iff_countP_pos _ _).mp hd
    have hcnt := hcount x
    have hpc : (pendingChunks (chunkPlan S C) isDone).countP
        (fun c => coversB c x) = 0 := by
      have := hpart x
      split_ifs at hcnt <;> omega
    have hpf : (pendingChunks (chunkPlan S C) isDone).any
        (fun c => coversB c x) = false := by
      rw [any_eq_decide_countP, hpc]
      rfl
    refine ⟨hpf, ?_⟩
    rw [resumeTransfer, runChunks_apply, hpf]
    simp
  · intro x hx
    rw [freshTransfer, runChunks_apply]
    have hps : (chunkPlan S C).any (fun c => coversB c x) = true := by
      rw [any_iff_countP_pos, hcount x]
      split_ifs with h
      · omega
      · omega
    simp [hps]
  · intro x hx
    rw [freshTransfer, runChunks_apply]
    have h0 : (chunkPlan S C).countP (fun c => coversB c x) = 0 := by
      rw [hcount x]
      split_ifs with h
      · omega
      · rfl
    have hany : (chunkPlan S C).any (fun c => coversB c x) = false := by
      rw [any_eq_decide_countP, h0]
      rfl
    simp [hany]

theorem resume_equals_fresh_witness :
    (0 < 4) ∧
    (∀ x, resumeTransfer (fun n => n) (chunkPlan 10 4)
        (fun c => decide (c.offset < 8)) x =
      freshTransfer (fun n => n) 10 4 x) :=
  ⟨by norm_num,
   (resume_equals_fresh (fun n => n) 10 4 (fun c => decide (c.offset < 8))
     (by norm_num)).1⟩

/-- C2: resuming a name absent from the persisted store fails with
`NotFoundError`; resuming a persisted name re-enters Running and runs until
the final status is Completed or Failed. -/
theorem resume_job_spec (store : List JobRecord) (n : String)
    (ok : Chunk → Bool) :
    (lookupJob store n = none →
      resume_job store n ok = .error .NotFoundError) ∧
    (∀ j, lookupJob store n = some j →
      ∃ fin, resume_job store n ok = .ok ([JobStatus.Running, fin.status], fin) ∧
        (fin.status = JobStatus.Completed ∨ fin.status = JobStatus.Failed)) := by
  constructor
  · intro h
    rw [resume_job.eq_def, h]
  · intro j h
    rw [resume_job.eq_def, h]
    refine ⟨runJob { j with status := JobStatus.Running } ok, rfl, ?_⟩
    by_cases he : (j.chunksPending.filter (fun c => !(ok c))).isEmpty
    · left
      simp [runJob, he]
    · right
      simp [runJob, he]

theorem resume_job_spec_witness :
    (resume_job [] "missing" (fun _ => true) =
      .error EngineError.NotFoundError) ∧
    (∃ fin, resume_job [⟨"j1", JobStatus.Paused, [], [⟨0, 4⟩]⟩] "j1"
        (fun _ => true) = .ok ([JobStatus.Running, fin.status], fin) ∧
      (fin.status = JobStatus.Completed ∨ fin.status = JobStatus.Failed)) :=
  ⟨(resume_job_spec [] "missing" (fun _ => true)).1 rfl,
   (resume_job_spec [⟨"j1", JobStatus.Paused, [], [⟨0, 4⟩]⟩] "j1"
     (fun _ => true)).2 ⟨"j1", JobStatus.Paused, [], [⟨0, 4⟩]⟩ (by decide)⟩

/-- C3: `clear(name)` on a non-Running job removes exactly that record
(the name no longer resolves, every other record survives); `clear(name)`
on a Running job fails with `JobBusyError` and the job remains listed;
`clear()` with no name removes exactly the records whose job is not
Running. -/
theorem clear_jobs_spec (store : List JobRecord) (n : String)
    (j : JobRecord) :
    (lookupJob store n = some j → j.status ≠ JobStatus.Running →
      clear_jobs store (some n) = .ok (removeJob store n) ∧
      lookupJob (removeJob store n) n = none ∧
      (∀ r ∈ store, r.name ≠ n → r ∈ removeJob store n)) ∧
    (lookupJob store n = some j → j.status = JobStatus.Running →
      clear_jobs store (some n) = .error EngineError.JobBusyError ∧
      lookupJob store n = some j) ∧
    (∀ res, clear_jobs store none = .ok res →
      (∀ r ∈ store, (r ∈ res ↔ r.status = JobStatus.Running)) ∧
      (∀ r ∈ res, r ∈ store)) := by
  refine ⟨?_, ?_, ?_⟩
  · intro h hne
    refine ⟨?_, ?_, ?_⟩
    · rw [clear_jobs.eq_def]
      simp only
      rw [h]
      simp only
      rw [if_neg hne]
    · apply List.find?_eq_none.mpr
      intro r hr
      rw [removeJob] at hr
      have := List.mem_filter.mp hr
      simpa using this.2
    · intro r hr hrn
      rw [removeJob]
      exact List.mem_filter.mpr ⟨hr, by simpa using hrn⟩
  · intro h hrun
    refine ⟨?_, h⟩
    rw [clear_jobs.eq_def]
    simp only
    rw [h]
    simp only
    rw [if_pos hrun]
  · intro res hres
    rw [clear_jobs.eq_def] at hres
    simp only at hres
    injection hres with hres
    subst hres
    constructor
    · intro r hr
      constructor
      · intro hmem
        have := List.mem_filter.mp hmem
        simpa using this.2
      · intro hst
        exact List.mem_filter.mpr ⟨hr, by simpa using hst⟩
    · intro r hr
      exact (List.mem_filter.mp hr).1

theorem clear_jobs_spec_witness :
    (clear_jobs [⟨"done", JobStatus.Completed, [], []⟩] (some "done") =
        .ok (removeJob [⟨"done", JobStatus.Completed, [], []⟩] "done") ∧
      lookupJob (removeJob [⟨"done", JobStatus.Completed, [], []⟩] "done")
        "done" = none ∧
      (∀ r ∈ [(⟨"done", JobStatus.Completed, [], []⟩ : JobRecord)],
        r.name ≠ "done" →
        r ∈ removeJob [⟨"done", JobStatus.Completed, [], []⟩] "done")) ∧
    (clear_jobs [⟨"run", JobStatus.Running, [], [⟨0, 1⟩]⟩] (some "run") =
        .error EngineError.JobBusyError ∧
      lookupJob [⟨"run", JobStatus.Running, [], [⟨0, 1⟩]⟩] "run" =
        some ⟨"run", JobStatus.Running, [], [⟨0, 1⟩]⟩) :=
  ⟨(clear_jobs_spec [⟨"done", JobStatus.Completed, [], []⟩] "done"
      ⟨"done", JobStatus.Completed, [], []⟩).1 (by decide) (by decide),
   (clear_jobs_spec [⟨"run", JobStatus.Running, [], [⟨0, 1⟩]⟩] "run"
      ⟨"run", JobStatus.Running, [], [⟨0, 1⟩]⟩).2.1 (by decide) (by decide)⟩

/-- C7: removing a job record by name is idempotent — removing twice equals
removing once — and removing a name absent from the store returns the store
unchanged (a no-op, not an error: `removeJob` is total). -/
theorem removeJob_idempotent (store : List JobRecord) (n : String) :
    removeJob (removeJob store n) n = removeJob store n ∧
    (lookupJob store n = none → removeJob store n = store) := by
  constructor
  · rw [removeJob, removeJob, List.filter_filter]
    simp
  · intro h
    rw [removeJob]
    apply List.filter_eq_self.mpr
    intro r hr
    have := List.find?_eq_none.mp h r hr
    simpa using this

theorem removeJob_idempotent_witness :
    removeJob (removeJob [⟨"a", JobStatus.Completed, [], []⟩] "b") "b" =
      removeJob [⟨"a", JobStatus.Completed, [], []⟩] "b" ∧
    removeJob [⟨"a", JobStatus.Completed, [], []⟩] "b" =
      [⟨"a", JobStatus.Completed, [], []⟩] :=
  ⟨(removeJob_idempotent [⟨"a", JobStatus.Completed, [], []⟩] "b").1,
   (removeJob_idempotent [⟨"a", JobStatus.Completed, [], []⟩] "b").2
     (by decide)⟩

theorem format_size_aux_lt (units : List String) :
    ∀ (num : ℚ) (k : Nat) (hk : k < units.length),
      |num| < 1024 ^ (k + 1) →
      (∀ j, j < k → 1024 ^ (j + 1) ≤ |num|) →
      format_size_aux num units = (num / 1024 ^ k, units.get ⟨k, hk⟩) := by
  induction units with
  | nil =>
    intro num k hk
    exact absurd hk (by simp)
  | cons u rest ih =>
    intro num k hk h1 h2
    match k with
    | 0 =>
      rw [format_size_aux, if_pos (by simpa using h1)]
      simp
    | j + 1 =>
      have hge : (1024 : ℚ) ≤ |num| := by
        have := h2 0 (by omega)
        simpa using this
      rw [format_size_aux, if_neg (not_lt.mpr hge)]
      have h1024 : (0 : ℚ) < 1024 := by norm_num
      have h1a : |num / 1024| < 1024 ^ (j + 1) := by
        rw [abs_div, abs_of_pos h1024, div_lt_iff₀ h1024]
        calc |num| < 1024 ^ (j + 1 + 1) := h1
          _ = 1024 ^ (j + 1) * 1024 := by rw [pow_succ]
      have h2a : ∀ i, i < j → 1024 ^ (i + 1) ≤ |num / 1024| := by
        intro i hi
        rw [abs_div, abs_of_pos h1024, le_div_iff₀ h1024]
        calc (1024 : ℚ) ^ (i + 1) * 1024 = 1024 ^ (i + 1 + 1) :=
              (pow_succ _ _).symm
          _ ≤ |num| := h2 (i + 1) (by omega)
      rw [ih (num / 1024) j (by simpa using Nat.lt_of_succ_lt_succ hk) h1a h2a]
      rw [Prod.mk.injEq]
      refine ⟨?_, rfl⟩
      have e : (1024 : ℚ) * 1024 ^ j = 1024 ^ (j + 1) := by
        rw [pow_succ]
        ring
      rw [div_div, e]

theorem format_size_aux_ge (units : List String) :
    ∀ num : ℚ, (1024 : ℚ) ^ units.length ≤ |num| →
      format_size_aux num units = (num / 1024 ^ units.length, "P") := by
  induction units with
  | nil =>
    intro num _
    rw [format_size_aux]
    simp
  | cons u rest ih =>
    intro num h
    have h1024 : (0 : ℚ) < 1024 := by norm_num
    have hge : (1024 : ℚ) ≤ |num| := by
      calc (1024 : ℚ) = 1024 ^ 1 := (pow_one _).symm
        _ ≤ 1024 ^ (u :: rest).length := by
            apply pow_le_pow_right₀ (by norm_num)
            simp
        _ ≤ |num| := h
    rw [format_size_aux, if_neg (not_lt.mpr hge)]
    have hs : (1024 : ℚ) ^ rest.length ≤ |num / 1024| := by
      rw [abs_div, abs_of_pos h1024, le_div_iff₀ h1024]
      calc (1024 : ℚ) ^ rest.length * 1024 = 1024 ^ (rest.length + 1) :=
            (pow_succ _ _).symm
        _ ≤ |num| := by simpa using h
    rw [ih (num / 1024) hs]
    rw [Prod.mk.injEq]
    refine ⟨?_, rfl⟩
    have e : (1024 : ℚ) * 1024 ^ rest.length = 1024 ^ (rest.length + 1) := by
      rw [pow_succ]
      ring
    rw [div_div, e]
    rfl

/-- C10: for `|num| < 1024^5`, `_format_size` renders `num` scaled by the
first power `1024^k` that brings its absolute value below 1024 (that is,
`k` minimal with `|num| < 1024^(k+1)`), suffixed by the unit among
B, K, M, G, T corresponding to `k`; for `1024^5 ≤ |num|` it renders
`num / 1024^5` suffixed by P. -/
theorem format_size_spec (num : ℚ) (k : Nat) :
    (k ≤ 4 → |num| < 1024 ^ (k + 1) →
      (∀ j, j < k → 1024 ^ (j + 1) ≤ |num|) →
      format_size num = (num / 1024 ^ k, unitFor k)) ∧
    (1024 ^ 5 ≤ |num| → format_size num = (num / 1024 ^ 5, "P")) := by
  constructor
  · intro hk h1 h2
    have hk5 : k < (["B", "K", "M", "G", "T"] : List String).length := by
      simp
      omega
    rw [format_size, format_size_aux_lt _ num k hk5 h1 h2]
    rw [Prod.mk.injEq]
    refine ⟨rfl, ?_⟩
    interval_cases k <;> rfl
  · intro h
    rw [format_size, format_size_aux_ge _ num (by simpa using h)]
    rfl

theorem format_size_spec_witness :
    format_size 2048 = ((2048 : ℚ) / 1024 ^ 1, unitFor 1) ∧
    unitFor 1 = "K" ∧ (2048 : ℚ) / 1024 ^ 1 = 2 :=
  ⟨(format_size_spec 2048 1).1 (by norm_num)
      (by
        rw [abs_of_pos (show (0 : ℚ) < 2048 by norm_num)]
        norm_num)
      (by
        intro j hj
        interval_cases j
        rw [abs_of_pos (show (0 : ℚ) < 2048 by norm_num)]
        norm_num),
   rfl, by norm_num⟩
